import Mathlib

/-!
Verification development for the flask-wishlist-site price engine.

Shallow embedding of the price-related services:
  * `services/price_service.py` (`_parse_price`, `_make_request`,
    `update_stale_prices` result processing, `_create_price_drop_notifications`,
    `refresh_item_price`)
  * `services/price_cache.py` (`get_cached_response`, `cache_response`)
  * `services/price_history.py` (`record_price_history`)
  * `services/amazon_stealth/identity_manager.py` (`IdentityManager`)
  * `services/price_async.py` (`fetch_prices_batch`, `_fetch_price_async_standard`)

Python strings are modelled as `List Char`; Python floats as `ℚ` (exact
arithmetic; the claims only involve values whose float behaviour matches
the exact one); fallible operations return `Option`.
-/

set_option maxRecDepth 8000

namespace Wishlist

/-! ### Python string helpers (ASCII model of `str` operations) -/

/-- Python whitespace (ASCII fragment; the price strings involved are ASCII). -/
def isWs (c : Char) : Bool :=
  c == ' ' || c == '\t' || c == '\n' || c == '\r'

/-- `str.strip()`: drop whitespace at both ends. -/
def pyStrip (l : List Char) : List Char :=
  ((l.dropWhile isWs).reverse.dropWhile isWs).reverse

/-- Does `needle` occur at the start of `hay`? -/
def startsWithL : List Char → List Char → Bool
  | [], _ => true
  | _ :: _, [] => false
  | n :: ns, h :: hs => n == h && startsWithL ns hs

/-- Python `needle in hay` (contiguous substring test). -/
def hasSub (needle : List Char) : List Char → Bool
  | [] => needle.isEmpty
  | h :: t => startsWithL needle (h :: t) || hasSub needle t

/-- Python `str.split(sep)` for a single-character separator: keeps empty parts. -/
def pySplit (sep : Char) : List Char → List (List Char)
  | [] => [[]]
  | c :: rest =>
    let r := pySplit sep rest
    if c == sep then [] :: r
    else
      match r with
      | h :: t => (c :: h) :: t
      | [] => [[c]]

/-- Python `str.rfind(c)`: highest index of `c`, or `-1` if absent. -/
def pyRfind (c : Char) (l : List Char) : Int :=
  match (l.reverse).findIdx? (· == c) with
  | some i => ((l.length - 1 - i : Nat) : Int)
  | none => -1

/-- First whitespace-separated token (`str.split()[0]` on a stripped string). -/
def firstToken (l : List Char) : List Char :=
  (l.dropWhile isWs).takeWhile (fun c => ! isWs c)

/-! ### `_parse_price` (src/services/price_service.py lines 798-854) -/

/-- The argument to `_parse_price`: Python `None`, a numeric literal, or a string. -/
inductive PriceInput where
  | pnone : PriceInput
  | pnum (q : ℚ) : PriceInput
  | pstr (s : List Char) : PriceInput

/-- Does the split pattern of line 817 match starting at this position?
Alternative 1: zero or more whitespace then a hyphen or en-dash.
Alternative 2: one or more whitespace, then case-insensitive `to`,
then more whitespace. -/
def rangeMatchAt (l : List Char) : Bool :=
  (match l.dropWhile isWs with
   | c :: _ => c == '-' || c == '–'
   | [] => false) ||
  (match l with
   | c :: _ =>
     isWs c &&
       (match l.dropWhile isWs with
        | t :: o :: x :: _ => (t == 't' || t == 'T') && (o == 'o' || o == 'O') && isWs x
        | _ => false)
   | [] => false)

/-- `re.split(pattern, s)[0]`: the prefix of `s` before the first match. -/
def rangePrefixOf : List Char → List Char
  | [] => []
  | c :: rest =>
    if rangeMatchAt (c :: rest) then [] else c :: rangePrefixOf rest

/-- Lines 816-817: range handling (take the text before the first range separator),
applied only when the string contains a spaced hyphen or a spaced `to`. -/
def rangeStep (l : List Char) : List Char :=
  if hasSub " - ".data l || hasSub " to ".data (l.map Char.toLower) then
    rangePrefixOf l
  else l

/-- Line 820: `re.sub` keeping only digits, `.`, `,` and whitespace, then `strip()`. -/
def cleanedOf (l : List Char) : List Char :=
  pyStrip (l.filter fun c => c.isDigit || c == '.' || c == ',' || isWs c)

/-- Lines 823-824: on a double space, keep the first whitespace-separated token. -/
def doubleSpaceStep (l : List Char) : List Char :=
  if hasSub [' ', ' '] l then firstToken l else l

/-- Lines 829-845: decimal/thousands separator disambiguation. -/
def sepStep (cleaned : List Char) : List Char :=
  if cleaned.contains ',' && cleaned.contains '.' then
    if pyRfind ',' cleaned > pyRfind '.' cleaned then
      -- European format 1.234,56: drop the periods, the comma becomes the point
      (cleaned.filter (· != '.')).map (fun c => if c == ',' then '.' else c)
    else
      -- US format 1,234.56: drop the commas
      cleaned.filter (· != ',')
  else if cleaned.contains ',' then
    let parts := pySplit ',' cleaned
    if parts.length == 2 && ((parts.get? 1).getD []).length ≤ 2 then
      -- treated as a European decimal comma
      cleaned.map (fun c => if c == ',' then '.' else c)
    else
      -- treated as a thousands separator
      cleaned.filter (· != ',')
  else cleaned

/-- Numeric value of a digit string (most significant first). -/
def digitsVal (l : List Char) : ℕ :=
  l.foldl (fun a c => 10 * a + (c.toNat - '0'.toNat)) 0

/-- Value of a digit string with at most one `.` in it: the integer part plus
the fractional part scaled down, expressed as one exact fraction. -/
def floatVal (s : List Char) : ℚ :=
  let ip := s.takeWhile (· != '.')
  let fp := (s.dropWhile (· != '.')).drop 1
  mkRat (digitsVal ip * 10 ^ fp.length + digitsVal fp) (10 ^ fp.length)

/-- Python `float(s)` restricted to the alphabet reachable at line 848
(digits, `.`, `,`, whitespace): succeeds on digit strings with at most one
point and at least one digit; commas or interior whitespace raise `ValueError`. -/
def pyFloat (l : List Char) : Option ℚ :=
  let s := pyStrip l
  if s.all (fun c => c.isDigit || c == '.') &&
     (s.filter (· == '.')).length ≤ 1 &&
     s.any Char.isDigit then
    some (floatVal s)
  else none

/-- `_parse_price` (price_service.py lines 798-854).
`pnone` and numeric `0` are falsy (line 807); a numeric literal is returned
as a float immediately (lines 810-811), bypassing the sanity check. -/
def parsePrice : PriceInput → Option ℚ
  | .pnone => none
  | .pnum q => if q = 0 then none else some q
  | .pstr s =>
    if s.isEmpty then none
    else
      let t := rangeStep (pyStrip s)
      let cleaned := doubleSpaceStep (cleanedOf t)
      if cleaned.isEmpty then none
      else
        match pyFloat (sepStep cleaned) with
        | none => none
        | some r => if r < 0 ∨ r > 1000000 then none else some r

/-! ### Response cache (src/services/price_cache.py) -/

/-- Cache TTL in seconds (price_cache.py line 10). -/
def CACHE_TTL : ℚ := 3600

/-- The backing key-value store with TTL support (Redis via flask-caching):
for each key, the stored string and the instant it expires. -/
def KVStore : Type := String → Option (String × ℚ)

/-- Read a key at time `now`: a value is visible strictly before its expiry. -/
def kvGet (store : KVStore) (now : ℚ) (key : String) : Option String :=
  match store key with
  | some (v, expireAt) => if now < expireAt then some v else none
  | none => none

/-- `cache.set(key, v, timeout=ttl)`: overwrite the key, expiring `ttl`
seconds from now. -/
def kvSet (store : KVStore) (now : ℚ) (key v : String) (ttl : ℚ) : KVStore :=
  fun k => if k = key then some (v, now + ttl) else store k

/-- `_make_cache_key` (price_cache.py lines 45-49). `md5Hex` stands for
`hashlib.md5(url.encode()).hexdigest()` (Python standard library, outside the
repository) and is passed as a parameter. -/
def makeCacheKey (md5Hex : String → String) (url : String) : String :=
  "price:html:" ++ md5Hex url

/-- `get_cached_response` (price_cache.py lines 12-30): a falsy (empty) URL
returns `None`; a stored value is returned only when truthy (nonempty). -/
def getCachedResponse (md5Hex : String → String) (store : KVStore) (now : ℚ)
    (url : String) : Option String :=
  if url = "" then none
  else
    match kvGet store now (makeCacheKey md5Hex url) with
    | some content => if content ≠ "" then some content else none
    | none => none

/-- `cache_response` (price_cache.py lines 32-43): a falsy URL or content
stores nothing; otherwise the content is written with the 1-hour TTL. -/
def cacheResponse (md5Hex : String → String) (store : KVStore) (now : ℚ)
    (url content : String) : KVStore :=
  if url = "" ∨ content = "" then store
  else kvSet store now (makeCacheKey md5Hex url) content CACHE_TTL

/-! ### `_make_request` retry loop (src/services/price_service.py lines 89-122) -/

/-- `MAX_RETRIES` (price_service.py line 53). -/
def MAX_RETRIES : ℕ := 2

/-- Outcome of one `session.get` followed by `raise_for_status`: either a
`requests.RequestException` was raised (connection error, timeout, or an
HTTP error status), or a response with its body text (such a response has
`ok = True`, having survived `raise_for_status`). -/
inductive ReqOutcome where
  | exn : ReqOutcome
  | resp (text : String) : ReqOutcome

/-- The value of `_make_request` together with the side effects the spec
speaks about: number of attempts issued, the sleep durations between
attempts, how many fresh randomized sessions were built inside the retry
loop, and the texts written to the response cache. -/
structure MakeRequestResult where
  result : Option String
  attempts : ℕ
  sleeps : List ℚ
  freshSessions : ℕ
  cacheWrites : List String
deriving DecidableEq

/-- The `for attempt in range(retries + 1)` loop of `_make_request`
(lines 101-122), entered at index `attempt`. `stub n` is the outcome of the
n-th `session.get`; `jitter n` models the `random.uniform(0, 1)` drawn before
the n-th retry sleep. -/
def requestLoop (stub : ℕ → ReqOutcome) (jitter : ℕ → ℚ) (retries : ℕ)
    (attempt : ℕ) : MakeRequestResult :=
  match stub attempt with
  | .resp text =>
    { result := some text, attempts := attempt + 1, sleeps := [],
      freshSessions := 0,
      cacheWrites := if text ≠ "" then [text] else [] }
  | .exn =>
    if _h : attempt < retries then
      let r := requestLoop stub jitter retries (attempt + 1)
      { r with
        sleeps := (((attempt : ℚ) + 1) * 2 + jitter attempt) :: r.sleeps,
        freshSessions := r.freshSessions + 1 }
    else
      { result := none, attempts := attempt + 1, sleeps := [],
        freshSessions := 0, cacheWrites := [] }
termination_by retries - attempt
decreasing_by omega

/-- `_make_request` (lines 89-122): consult the cache first (a truthy cached
text short-circuits everything); otherwise run the retry loop from attempt 0.
`cached` is the value of `price_cache.get_cached_response(url)`. -/
def makeRequest (cached : Option String) (stub : ℕ → ReqOutcome)
    (jitter : ℕ → ℚ) (retries : ℕ) : MakeRequestResult :=
  match cached with
  | some text =>
    if text = "" then requestLoop stub jitter retries 0
    else
      { result := some text, attempts := 0, sleeps := [], freshSessions := 0,
        cacheWrites := [] }
  | none => requestLoop stub jitter retries 0

/-! ### `record_price_history` (src/services/price_history.py lines 12-73) -/

/-- One `PriceHistory` row. -/
structure HistRow where
  itemId : ℕ
  price : ℚ
  source : String
  recordedAt : ℚ
deriving DecidableEq

/-- `record_price_history`: the history list is kept most-recent-first, so
the head of the per-item filter is the row the query
`order_by(recorded_at.desc()).first()` returns. Returns the flag together
with the updated history. Timestamps are seconds; `0.01` and the 6-hour
window are exact rationals. -/
def recordPriceHistory (hist : List HistRow) (now : ℚ) (itemId : ℕ)
    (price : Option ℚ) (source : String) : Bool × List HistRow :=
  match price with
  | none => (false, hist)
  | some p =>
    if p < 0 then (false, hist)
    else
      let lastRecord := (hist.filter (fun r => r.itemId == itemId)).head?
      let shouldRecord :=
        match lastRecord with
        | none => true
        | some last =>
          if |last.price - p| > 1 / 100 then true
          else if now - last.recordedAt > 6 * 3600 then true
          else false
      if shouldRecord then
        (true, { itemId := itemId, price := p, source := source,
                 recordedAt := now } :: hist)
      else (false, hist)

/-! ### Identity manager (src/services/amazon_stealth/identity_manager.py) -/

/-- `BURN_DURATION_HOURS` (identity_manager.py line 16). -/
def BURN_DURATION_HOURS : ℕ := 24

/-- A browser identity. Only the `id` field is read by the manager's
selection and burn logic; the immutable profile fields (user agent, viewport,
timezone, ...) play no role in the claims. -/
structure BrowserIdentity where
  id : String
deriving DecidableEq

/-- The mutable per-identity state held in Redis: the parsed burn timestamp
stored under `amazon:identity:<id>:burned` (absent keys and the 24-hour key
expiry are both modelled by the value check), and the request counter under
`amazon:identity:<id>:requests` (0 when absent). -/
structure IdentityState where
  burnedUntil : String → Option ℚ
  requests : String → ℕ

/-- `_is_burned` (lines 45-57): burned iff a burn timestamp is stored and
`now` is strictly before it. -/
def isBurned (st : IdentityState) (now : ℚ) (identityId : String) : Bool :=
  match st.burnedUntil identityId with
  | none => false
  | some burnUntil => now < burnUntil

/-- `get_healthy_identity` (lines 59-81), modelled as the list the final
`random.choice(low_usage)` draws from: the non-burned identities are sorted
by request count, and those within +2 of the count of the first (minimal)
element are kept. The method returns `None` exactly when this list is empty
(all identities burned), and otherwise some element of the list. -/
def healthyCandidates (ids : List BrowserIdentity) (st : IdentityState)
    (now : ℚ) : List BrowserIdentity :=
  match (ids.filter (fun i => ! isBurned st now i.id)).mergeSort
      (fun i j => st.requests i.id ≤ st.requests j.id) with
  | [] => []
  | first :: rest =>
    (first :: rest).filter (fun i => st.requests i.id ≤ st.requests first.id + 2)

/-- `mark_burned` (lines 103-115): store `now + 24h` under the identity's
burn key (the matching `expire` call removes the key at the same instant the
value check starts failing, so the value model covers both). -/
def markBurned (st : IdentityState) (now : ℚ) (identityId : String) :
    IdentityState :=
  { st with
    burnedUntil := fun k =>
      if k = identityId then some (now + (BURN_DURATION_HOURS : ℚ) * 3600)
      else st.burnedUntil k }

/-! ### Async batch fetch (src/services/price_async.py) -/

/-- Outcome of the aiohttp `session.get` in `_fetch_price_async_standard`:
an exception, or a response with HTTP status and body text. -/
inductive StdOutcome where
  | exn : StdOutcome
  | http (status : ℕ) (text : String) : StdOutcome

/-- One extraction-log row as written by
`price_metrics.log_extraction_attempt` (fields not relevant to the claims
are omitted). -/
structure LogRow where
  url : String
  method : String
  success : Bool
deriving DecidableEq

/-- The environment `fetch_prices_batch` runs in: `domainOf` is
`urlparse(url).netloc.lower()` (standard library); `cache` the
`get_cached_response` view; `fetchStd` the network outcome per URL;
`parseContent` is `_parse_content`; `stealthPrice` the price the stealth
extractor produces for a URL (`none` on any failure); `healthy k` whether
`manager.get_healthy_identity()` finds a non-burned identity at the k-th
Amazon URL of the sequential stealth loop. -/
structure BatchEnv where
  domainOf : String → String
  cache : String → Option String
  fetchStd : String → StdOutcome
  parseContent : String → String → Option ℚ
  stealthPrice : String → Option ℚ
  healthy : ℕ → Bool

/-- `_is_amazon_url` (price_async.py lines 41-45). -/
def isAmazonUrl (env : BatchEnv) (url : String) : Bool :=
  let domain := env.domainOf url
  hasSub "amazon".data domain.data ||
    decide (domain ∈ ["a.co", "amzn.to", "amzn.eu"])

/-- The cache-miss part of `_fetch_price_async_standard` (lines 234-281):
always writes exactly one `async_aiohttp` log row in its `finally` block
(the `success` flag is the truthiness of the parsed price). -/
def fetchStdMiss (env : BatchEnv) (url : String) : Option ℚ × List LogRow :=
  match env.fetchStd url with
  | .exn => (none, [{ url := url, method := "async_aiohttp", success := false }])
  | .http status text =>
    if status ≠ 200 then
      (none, [{ url := url, method := "async_aiohttp", success := false }])
    else
      let price := env.parseContent url text
      (price,
        [{ url := url, method := "async_aiohttp",
           success := match price with | some p => decide (p ≠ 0) | none => false }])

/-- `_fetch_price_async_standard` (price_async.py lines 222-281): a falsy URL
returns immediately; a truthy cached text returns the parsed content *before*
the `try/finally` block, writing no log row; every other path logs once. -/
def fetchPriceAsyncStandard (env : BatchEnv) (url : String) :
    Option ℚ × List LogRow :=
  if url = "" then (none, [])
  else
    match env.cache url with
    | some cachedText =>
      if cachedText ≠ "" then (env.parseContent url cachedText, [])
      else fetchStdMiss env url
    | none => fetchStdMiss env url

/-- The concurrent standard-path loop of `fetch_prices_batch`: one result
entry per URL, log rows concatenated. -/
def processStandard (env : BatchEnv) :
    List String → List (String × Option ℚ) × List LogRow
  | [] => ([], [])
  | url :: rest =>
    let pr := fetchPriceAsyncStandard env url
    let rs := processStandard env rest
    ((url, pr.1) :: rs.1, pr.2 ++ rs.2)

/-- The sequential stealth loop of `fetch_prices_batch` (lines 114-125),
starting at the k-th Amazon URL: with a healthy identity,
`_fetch_amazon_stealth` runs and its `finally` block writes exactly one
`async_stealth` log row; with no healthy identity the URL is recorded as
`None` in the results and nothing is logged. -/
def processStealth (env : BatchEnv) (k : ℕ) :
    List String → List (String × Option ℚ) × List LogRow
  | [] => ([], [])
  | url :: rest =>
    let rs := processStealth env (k + 1) rest
    if env.healthy k then
      let price := env.stealthPrice url
      ((url, price) :: rs.1,
        { url := url, method := "async_stealth",
          success := price.isSome } :: rs.2)
    else
      ((url, none) :: rs.1, rs.2)

/-- `fetch_prices_batch` (price_async.py lines 67-153). `stealthEnabled` is
`AMAZON_STEALTH_ENABLED`; `managerAvail` whether `_get_identity_manager()`
produced a manager. Falsy URLs appear in neither partition (lines 77-78). -/
def fetchPricesBatch (env : BatchEnv) (stealthEnabled managerAvail : Bool)
    (urls : List String) : List (String × Option ℚ) × List LogRow :=
  let amazonUrls := urls.filter (fun u => u ≠ "" && isAmazonUrl env u)
  let otherUrls := urls.filter (fun u => u ≠ "" && ! isAmazonUrl env u)
  let std := processStandard env otherUrls
  let amz :=
    if stealthEnabled && managerAvail then processStealth env 0 amazonUrls
    else processStandard env amazonUrls
  (std.1 ++ amz.1, std.2 ++ amz.2)

/-! ### Price drop notifications (src/services/price_service.py lines 1062-1134) -/

/-- Recipient role of a price-drop notification. -/
inductive Role where
  | owner : Role
  | claimer : Role
deriving DecidableEq

/-- A notification intent: recipient user and role-appropriate template. -/
structure NotifIntent where
  userId : ℕ
  role : Role
deriving DecidableEq

/-- `_create_price_drop_notifications` (lines 1106-1134): always one
notification for the item's owner; one more for `last_updated_by_id` when it
is truthy (nonzero), differs from the owner, and the item status is Claimed
or Purchased. -/
def createPriceDropNotifications (ownerId : ℕ) (lastUpdatedById : Option ℕ)
    (status : String) : List NotifIntent :=
  { userId := ownerId, role := .owner } ::
    (match lastUpdatedById with
     | some c =>
       if c ≠ 0 ∧ c ≠ ownerId ∧ (status = "Claimed" ∨ status = "Purchased") then
         [{ userId := c, role := .claimer }]
       else []
     | none => [])

/-- The per-item result processing of `update_stale_prices` for an item whose
batch fetch produced `newPrice` (lines 1062-1079): the increments to
`prices_updated` and `price_drops`, and the notification intents emitted.
The `Notification` class is assumed passed (the claims are about the
notification-enabled caller). `old_price` truthiness is `≠ None` and `≠ 0`. -/
def processItemUpdate (oldPrice : Option ℚ) (newPrice : ℚ) (ownerId : ℕ)
    (lastUpdatedById : Option ℕ) (status : String) :
    ℕ × ℕ × List NotifIntent :=
  if oldPrice ≠ some newPrice then
    match oldPrice with
    | some o =>
      if o ≠ 0 ∧ newPrice < o then
        let dropPercent := (o - newPrice) / o * 100
        if dropPercent ≥ 10 then
          (1, 1, createPriceDropNotifications ownerId lastUpdatedById status)
        else (1, 0, [])
      else (1, 0, [])
    | none => (1, 0, [])
  else (0, 0, [])

/-! ### `refresh_item_price` (src/services/price_service.py lines 1158-1200) -/

/-- The item fields `refresh_item_price` touches. -/
structure Item where
  link : String
  price : Option ℚ
  priceUpdatedAt : Option ℚ
deriving DecidableEq

/-- What `refresh_item_price` returns and leaves behind: the `(success,
new_price, message)` triple, the item state, the history table and the number
of `db.session.commit()` calls (including the one inside
`record_price_history` when it writes). -/
structure RefreshResult where
  success : Bool
  newPrice : Option ℚ
  message : String
  item : Item
  hist : List HistRow
  commits : ℕ

/-- `refresh_item_price` (lines 1158-1200), with the `fetch_price` outcome
passed in as `fetchResult` and `fmtMoney` standing for the `:.2f` float
formatting of the f-string messages. -/
def refreshItemPrice (item : Item) (itemId : ℕ) (fetchResult : Option ℚ)
    (now : ℚ) (hist : List HistRow) (fmtMoney : ℚ → String) : RefreshResult :=
  if item.link = "" then
    { success := false, newPrice := none, message := "Item has no link",
      item := item, hist := hist, commits := 0 }
  else
    match fetchResult with
    | some newPrice =>
      let oldPrice := item.price
      let item2 := { item with price := some newPrice, priceUpdatedAt := some now }
      let rec2 := recordPriceHistory hist now itemId (some newPrice) "manual"
      let commits := (if rec2.1 then 1 else 0) + 1
      match oldPrice with
      | none =>
        { success := true, newPrice := some newPrice,
          message := "Price found: $" ++ fmtMoney newPrice,
          item := item2, hist := rec2.2, commits := commits }
      | some o =>
        if |o - newPrice| < 1 / 100 then
          { success := true, newPrice := some newPrice,
            message := "Price confirmed (no change)",
            item := item2, hist := rec2.2, commits := commits }
        else
          { success := true, newPrice := some newPrice,
            message := "Price updated from $" ++ fmtMoney o ++ " to $" ++
              fmtMoney newPrice,
            item := item2, hist := rec2.2, commits := commits }
    | none =>
      { success := false, newPrice := none,
        message := "Could not fetch price from URL",
        item := { item with priceUpdatedAt := some now }, hist := hist,
        commits := 1 }

/-! ## Theorems -/

example : parsePrice (.pstr "$19.99".data) = some (mkRat 1999 100) := by decide
example : parsePrice (.pstr "not a price".data) = none := by decide
example : parsePrice (.pstr "$10 - $20".data) = some 10 := by decide
example : parsePrice (.pstr "USD 19.99".data) = some (mkRat 1999 100) := by decide

/-! ### Helper lemmas about the string pipeline -/

/-- The ten decimal digit characters. -/
def digitChars : List Char :=
  ['0', '1', '2', '3', '4', '5', '6', '7', '8', '9']

/-- Digits together with the two separator characters. -/
def sepDigitChars : List Char := digitChars ++ [',', '.']

theorem dropWhile_eq_self_of {p : Char → Bool} {l : List Char}
    (h : ∀ c ∈ l, p c = false) : l.dropWhile p = l := by
  cases l with
  | nil => rfl
  | cons x xs =>
    rw [List.dropWhile_cons, h x (List.mem_cons_self x xs)]
    simp

theorem pyStrip_eq_self {l : List Char} (h : ∀ c ∈ l, isWs c = false) :
    pyStrip l = l := by
  unfold pyStrip
  rw [dropWhile_eq_self_of h,
    dropWhile_eq_self_of (fun c hc => h c (List.mem_reverse.mp hc)),
    List.reverse_reverse]

theorem hasSub_cons_false {c : Char} {ns l : List Char} (h : c ∉ l) :
    hasSub (c :: ns) l = false := by
  induction l with
  | nil => rfl
  | cons x xs ih =>
    have hcx : (c == x) = false := by
      simp only [beq_eq_false_iff_ne, ne_eq]
      exact fun he => h (he ▸ List.mem_cons_self x xs)
    simp only [hasSub, startsWithL, hcx, Bool.false_and, Bool.false_or]
    exact ih (fun hm => h (List.mem_cons_of_mem x hm))

theorem pySplit_no_sep {sep : Char} {l : List Char} (h : sep ∉ l) :
    pySplit sep l = [l] := by
  induction l with
  | nil => rfl
  | cons x xs ih =>
    have hx : (x == sep) = false := by
      simp only [beq_eq_false_iff_ne, ne_eq]
      exact fun he => h (he ▸ List.mem_cons_self x xs)
    simp only [pySplit, hx, Bool.false_eq_true, if_false,
      ih (fun hm => h (List.mem_cons_of_mem x hm))]

theorem pySplit_append {sep : Char} {a b : List Char}
    (ha : sep ∉ a) (hb : sep ∉ b) :
    pySplit sep (a ++ sep :: b) = [a, b] := by
  induction a with
  | nil => simp only [List.nil_append, pySplit, beq_self_eq_true, if_true,
      pySplit_no_sep hb]
  | cons x xs ih =>
    have hx : (x == sep) = false := by
      simp only [beq_eq_false_iff_ne, ne_eq]
      exact fun he => ha (he ▸ List.mem_cons_self x xs)
    simp only [List.cons_append, pySplit, hx, Bool.false_eq_true, if_false,
      List.append_eq, ih (fun hm => ha (List.mem_cons_of_mem x hm))]

theorem map_eq_self_of {f : Char → Char} {l : List Char}
    (h : ∀ c ∈ l, f c = c) : l.map f = l := by
  induction l with
  | nil => rfl
  | cons x xs ih =>
    simp only [List.map_cons, h x (List.mem_cons_self x xs),
      ih (fun c hc => h c (List.mem_cons_of_mem x hc))]

theorem filter_eq_self_of {p : Char → Bool} {l : List Char}
    (h : ∀ c ∈ l, p c = true) : l.filter p = l :=
  List.filter_eq_self.mpr h

/-- Character-level facts about the digit/separator alphabet, checked by
enumeration of the twelve characters. -/
theorem sepDigit_facts : ∀ c ∈ sepDigitChars,
    isWs c = false ∧ Char.toLower c ≠ ' ' ∧
    (c.isDigit || c == '.' || c == ',' || isWs c) = true ∧ c ≠ ' ' := by decide

/-- On a nonempty string over digits, comma and period, the whole
pre-separator pipeline of `_parse_price` (strip, range split, character
cleaning, double-space handling) is the identity, so parsing reduces to the
separator step, the float conversion and the sanity check. -/
theorem parse_clean (l : List Char) (hne : l ≠ [])
    (hl : ∀ c ∈ l, c ∈ sepDigitChars) :
    parsePrice (.pstr l) =
      (match pyFloat (sepStep l) with
       | none => none
       | some r => if r < 0 ∨ r > 1000000 then none else some r) := by
  have hws : ∀ c ∈ l, isWs c = false := fun c hc => (sepDigit_facts c (hl c hc)).1
  have hstrip : pyStrip l = l := pyStrip_eq_self hws
  have hsp : ' ' ∉ l := fun hm => (sepDigit_facts ' ' (hl ' ' hm)).2.2.2 rfl
  have hr1 : hasSub " - ".data l = false := hasSub_cons_false hsp
  have hsplow : ' ' ∉ l.map Char.toLower := by
    intro hm
    obtain ⟨c, hc, hlow⟩ := List.mem_map.mp hm
    exact (sepDigit_facts c (hl c hc)).2.1 hlow
  have hr2 : hasSub " to ".data (l.map Char.toLower) = false :=
    hasSub_cons_false hsplow
  have hrange : rangeStep l = l := by
    unfold rangeStep
    rw [hr1, hr2]
    rfl
  have hclean : cleanedOf l = l := by
    unfold cleanedOf
    rw [filter_eq_self_of (fun c hc => (sepDigit_facts c (hl c hc)).2.2.1), hstrip]
  have hds : doubleSpaceStep l = l := by
    unfold doubleSpaceStep
    rw [hasSub_cons_false hsp]
    rfl
  have hne' : l.isEmpty = false := by
    cases l with
    | nil => exact absurd rfl hne
    | cons x xs => rfl
  simp only [parsePrice, hne', Bool.false_eq_true, if_false, hstrip, hrange,
    hclean, hds]

theorem contains_true {c : Char} {l : List Char} (h : c ∈ l) :
    l.contains c = true := by
  simpa using h

theorem contains_false {c : Char} {l : List Char} (h : c ∉ l) :
    l.contains c = false := by
  simpa using h

theorem sepStep_no_comma {l : List Char} (h : ',' ∉ l) : sepStep l = l := by
  unfold sepStep
  rw [contains_false h]
  simp

theorem sepStep_lone_comma {a b : List Char} (ha : ',' ∉ a) (hb : ',' ∉ b)
    (hd : '.' ∉ a ++ ',' :: b) :
    sepStep (a ++ ',' :: b) =
      if b.length ≤ 2 then a ++ '.' :: b else a ++ b := by
  have hcon : (a ++ ',' :: b).contains ',' = true :=
    contains_true (List.mem_append_right a (List.mem_cons_self ',' b))
  have hdot : (a ++ ',' :: b).contains '.' = false := contains_false hd
  have hmap : (a ++ ',' :: b).map (fun c => if c == ',' then '.' else c) =
      a ++ '.' :: b := by
    rw [List.map_append, List.map_cons]
    rw [map_eq_self_of (fun c hc => by
        have : (c == ',') = false := by
          simp only [beq_eq_false_iff_ne, ne_eq]
          exact fun he => ha (he ▸ hc)
        simp [this]),
      map_eq_self_of (fun c hc => by
        have : (c == ',') = false := by
          simp only [beq_eq_false_iff_ne, ne_eq]
          exact fun he => hb (he ▸ hc)
        simp [this])]
    simp
  have hfil : (a ++ ',' :: b).filter (· != ',') = a ++ b := by
    rw [List.filter_append, List.filter_cons]
    have : ((',' : Char) != ',') = false := by simp
    rw [this]
    simp only [Bool.false_eq_true, if_false]
    rw [filter_eq_self_of (fun c hc => by
        simp only [bne_iff_ne, ne_eq]
        exact fun he => ha (he ▸ hc)),
      filter_eq_self_of (fun c hc => by
        simp only [bne_iff_ne, ne_eq]
        exact fun he => hb (he ▸ hc))]
  unfold sepStep
  rw [hcon, hdot]
  simp only [Bool.true_and, Bool.false_eq_true, if_false, if_true]
  rw [pySplit_append ha hb]
  by_cases h2 : b.length ≤ 2
  · have hc : ([a, b].length == 2 &&
        decide ((([a, b].get? 1).getD []).length ≤ 2)) = true := by
      simp [h2]
    rw [hc, if_pos rfl, if_pos h2]
    exact hmap
  · have hc : ([a, b].length == 2 &&
        decide ((([a, b].get? 1).getD []).length ≤ 2)) = false := by
      simp [h2]
    rw [hc, if_neg (by simp), if_neg h2]
    exact hfil

/-- C1: the claim states that `_parse_price` rejects negative values and
values exceeding 1,000,000 "whether the input is given as a numeric literal
or as a string". It is false for numeric literals: the `isinstance` branch at
price_service.py lines 810-811 returns `float(price_text)` before the sanity
check, so `_parse_price(-5)` returns `-5.0`, not `None`. -/
theorem c1_counterexample :
    parsePrice (.pnum (-5)) = some (-5) ∧ parsePrice (.pnum (-5)) ≠ none := by
  constructor
  · decide
  · decide

/-- C1 (amended): the sanity check applies only to string inputs — every
string that parses at all yields a value in [0, 1,000,000] (in particular
`_parse_price("2000000") = None`, and a negative sign in a string is stripped
by the cleaning regex, so `_parse_price("-5") = 5.0`); numeric literals
bypass the check entirely: `_parse_price(-5) = -5.0` and
`_parse_price(2000000) = 2000000.0`. -/
theorem c1_amended :
    (∀ s q, parsePrice (.pstr s) = some q → 0 ≤ q ∧ q ≤ 1000000) ∧
    parsePrice (.pstr "2000000".data) = none ∧
    parsePrice (.pstr "-5".data) = some 5 ∧
    parsePrice (.pnum (-5)) = some (-5) ∧
    parsePrice (.pnum 2000000) = some 2000000 := by
  refine ⟨?_, by decide, by decide, by decide, by decide⟩
  intro s q h
  by_cases h1 : s.isEmpty
  · simp [parsePrice, h1] at h
  · simp only [parsePrice, h1, Bool.false_eq_true, if_false] at h
    by_cases h2 : (doubleSpaceStep (cleanedOf (rangeStep (pyStrip s)))).isEmpty
    · simp [h2] at h
    · simp only [h2, Bool.false_eq_true, if_false] at h
      cases hpf : pyFloat (sepStep (doubleSpaceStep (cleanedOf (rangeStep (pyStrip s))))) with
      | none => rw [hpf] at h; exact absurd h (by simp)
      | some r =>
        rw [hpf] at h
        by_cases h3 : r < 0 ∨ r > 1000000
        · simp [h3] at h
        · simp only [h3, if_false] at h
          push_neg at h3
          obtain rfl : r = q := by exact Option.some.inj h
          exact ⟨h3.1, h3.2⟩

/-- C1 (witness for the amended theorem): the universally quantified part
applied to the concrete input "-5". -/
theorem c1_amended_witness : (0 : ℚ) ≤ 5 ∧ (5 : ℚ) ≤ 1000000 :=
  c1_amended.1 "-5".data 5 (by decide)

/-- C2: the claim states that a lone comma is a decimal point only when
exactly two digits follow it, and that "a string with exactly one digit after
the lone comma parses as a comma-less integer". The code's test at
price_service.py line 840 is `len(parts[1]) <= 2`, so `"19,9"` parses as
`19.9`, not as the comma-less integer `199`. -/
theorem c2_counterexample :
    parsePrice (.pstr "19,9".data) = some (mkRat 199 10) ∧
    parsePrice (.pstr "19,9".data) ≠ some 199 := by
  constructor
  · decide
  · decide

/-- C2 (amended): when both a comma and a period are present the right-most
of the two is the decimal point (`parse("1.234,56") = 1234.56` and
`parse("1,234.56") = 1234.56`); when only a single comma is present it is a
decimal point when *at most* two digits follow it and a thousands separator
otherwise: for digit strings `a` and `b`, `parse(a ++ "," ++ b)` equals
`parse(a ++ "." ++ b)` when `b` has at most two digits and equals
`parse(a ++ b)` otherwise (so `parse("19,9") = 19.9`). -/
theorem c2_amended :
    (∀ a b : List Char, (∀ c ∈ a ++ b, c ∈ digitChars) →
      parsePrice (.pstr (a ++ ',' :: b)) =
        if b.length ≤ 2 then parsePrice (.pstr (a ++ '.' :: b))
        else parsePrice (.pstr (a ++ b))) ∧
    parsePrice (.pstr "1.234,56".data) = some (mkRat 123456 100) ∧
    parsePrice (.pstr "1,234.56".data) = some (mkRat 123456 100) ∧
    parsePrice (.pstr "19,9".data) = some (mkRat 199 10) := by
  refine ⟨?_, by decide, by decide, by decide⟩
  intro a b hab
  have hdig : ∀ c ∈ digitChars, c ∈ sepDigitChars := by decide
  have hda : ∀ c ∈ a, c ∈ digitChars :=
    fun c hc => hab c (List.mem_append_left b hc)
  have hdb : ∀ c ∈ b, c ∈ digitChars :=
    fun c hc => hab c (List.mem_append_right a hc)
  have hnd : ∀ c ∈ digitChars, c ≠ ',' ∧ c ≠ '.' := by decide
  have hca : ',' ∉ a := fun hm => ((hnd ',' (hda ',' hm)).1) rfl
  have hcb : ',' ∉ b := fun hm => ((hnd ',' (hdb ',' hm)).1) rfl
  have hdotm : '.' ∉ a ++ ',' :: b := by
    intro hm
    rcases List.mem_append.mp hm with hm | hm
    · exact (hnd '.' (hda '.' hm)).2 rfl
    · rcases List.mem_cons.mp hm with he | hm
      · exact absurd he (by decide)
      · exact (hnd '.' (hdb '.' hm)).2 rfl
  have hclean1 : ∀ c ∈ a ++ ',' :: b, c ∈ sepDigitChars := by
    intro c hc
    rcases List.mem_append.mp hc with hm | hm
    · exact hdig c (hda c hm)
    · rcases List.mem_cons.mp hm with he | hm
      · rw [he]; decide
      · exact hdig c (hdb c hm)
  have hne1 : a ++ ',' :: b ≠ [] := by simp
  rw [parse_clean _ hne1 hclean1, sepStep_lone_comma hca hcb hdotm]
  by_cases h2 : b.length ≤ 2
  · rw [if_pos h2, if_pos h2]
    have hclean2 : ∀ c ∈ a ++ '.' :: b, c ∈ sepDigitChars := by
      intro c hc
      rcases List.mem_append.mp hc with hm | hm
      · exact hdig c (hda c hm)
      · rcases List.mem_cons.mp hm with he | hm
        · rw [he]; decide
        · exact hdig c (hdb c hm)
    have hcomma2 : ',' ∉ a ++ '.' :: b := by
      intro hm
      rcases List.mem_append.mp hm with hm | hm
      · exact hca hm
      · rcases List.mem_cons.mp hm with he | hm
        · exact absurd he (by decide)
        · exact hcb hm
    rw [parse_clean _ (by simp) hclean2, sepStep_no_comma hcomma2]
  · rw [if_neg h2, if_neg h2]
    have hbne : b ≠ [] := by
      intro he
      rw [he] at h2
      exact h2 (by simp)
    have hclean3 : ∀ c ∈ a ++ b, c ∈ sepDigitChars := fun c hc => hdig c (hab c hc)
    have hcomma3 : ',' ∉ a ++ b := by
      intro hm
      rcases List.mem_append.mp hm with hm | hm
      · exact hca hm
      · exact hcb hm
    have hne3 : a ++ b ≠ [] := by
      intro he
      exact hbne (List.append_eq_nil.mp he).2
    rw [parse_clean _ hne3 hclean3, sepStep_no_comma hcomma3]

/-- C2 (witness for the amended theorem): the lone-comma rule applied to the
concrete digit strings of "19,9". -/
theorem c2_amended_witness :
    parsePrice (.pstr (['1', '9'] ++ ',' :: ['9'])) =
      if (['9'] : List Char).length ≤ 2 then
        parsePrice (.pstr (['1', '9'] ++ '.' :: ['9']))
      else parsePrice (.pstr (['1', '9'] ++ ['9'])) :=
  c2_amended.1 ['1', '9'] ['9'] (by decide)

theorem requestLoop_attempts_le (stub : ℕ → ReqOutcome) (jitter : ℕ → ℚ) :
    ∀ (fuel retries attempt : ℕ), retries - attempt ≤ fuel →
      attempt ≤ retries →
      (requestLoop stub jitter retries attempt).attempts ≤ retries + 1 := by
  intro fuel
  induction fuel with
  | zero =>
    intro retries attempt hf hle
    have heq : attempt = retries := by omega
    subst heq
    rw [requestLoop]
    cases stub attempt with
    | resp text => simp
    | exn =>
      rw [dif_neg (by omega)]
  | succ n ih =>
    intro retries attempt hf hle
    rw [requestLoop]
    cases stub attempt with
    | resp text => simp; omega
    | exn =>
      by_cases hlt : attempt < retries
      · rw [dif_pos hlt]
        exact ih retries (attempt + 1) (by omega) (by omega)
      · rw [dif_neg hlt]
        simp
        omega

/-- C3: on a cache miss, `_make_request` issues at most `1 + MAX_RETRIES = 3`
attempts; if every attempt raises a request error it returns `None` (rather
than raising), having slept `(attempt+1)*2 + jitter` seconds and built a
fresh randomized session between consecutive attempts; a stub failing twice
and succeeding on the third call yields that success on the 3rd attempt. -/
theorem c3_retry (stub : ℕ → ReqOutcome) (jitter : ℕ → ℚ) :
    (makeRequest none stub jitter MAX_RETRIES).attempts ≤ 1 + MAX_RETRIES ∧
    ((∀ n, stub n = .exn) →
      makeRequest none stub jitter MAX_RETRIES =
        { result := none, attempts := 1 + MAX_RETRIES,
          sleeps := [2 + jitter 0, 4 + jitter 1], freshSessions := 2,
          cacheWrites := [] }) ∧
    (∀ text, stub 0 = .exn → stub 1 = .exn → stub 2 = .resp text →
      (makeRequest none stub jitter MAX_RETRIES).result = some text ∧
      (makeRequest none stub jitter MAX_RETRIES).attempts = 3) := by
  refine ⟨?_, ?_, ?_⟩
  · have := requestLoop_attempts_le stub jitter MAX_RETRIES MAX_RETRIES 0
      (by omega) (by omega)
    simpa [makeRequest, MAX_RETRIES, Nat.add_comm] using this
  · intro h
    have e0 := h 0
    have e1 := h 1
    have e2 := h 2
    simp only [makeRequest, MAX_RETRIES]
    rw [requestLoop, e0, dif_pos (by omega), requestLoop, e1,
      dif_pos (by omega), requestLoop, e2, dif_neg (by omega)]
    simp only [MakeRequestResult.mk.injEq]
    norm_num
  · intro text e0 e1 e2
    simp only [makeRequest, MAX_RETRIES]
    rw [requestLoop, e0, dif_pos (by omega), requestLoop, e1,
      dif_pos (by omega), requestLoop, e2]
    exact ⟨rfl, rfl⟩

/-- C3 (witness): the all-failures conjunct applied to the concrete stub that
always raises, with zero jitter. -/
theorem c3_retry_witness :
    makeRequest none (fun _ => .exn) (fun _ => (0 : ℚ)) MAX_RETRIES =
      { result := none, attempts := 1 + MAX_RETRIES, sleeps := [2 + 0, 4 + 0],
        freshSessions := 2, cacheWrites := [] } :=
  (c3_retry (fun _ => .exn) (fun _ => (0 : ℚ))).2.1 (fun _ => rfl)

/-- C4: the claim quantifies over "every HTML body", but `cache_response`
stores nothing for a falsy (empty) body (price_cache.py lines 35-36), so a
put of the empty body followed by a get returns `None`, not the stored
body. -/
theorem c4_counterexample :
    getCachedResponse (fun s => s)
        (cacheResponse (fun s => s) (fun _ => none) 0 "u" "") 0 "u" = none ∧
    getCachedResponse (fun s => s)
        (cacheResponse (fun s => s) (fun _ => none) 0 "u" "") 0 "u" ≠
      some "" := by
  constructor
  · rfl
  · intro h
    exact Option.noConfusion h

/-- C4 (amended): for every nonempty URL and nonempty body,
`cache_response(url, body)` followed immediately by
`get_cached_response(url)` returns exactly the stored body; a URL whose MD5
hash differs reads exactly what it read before the write (distinct URLs with
distinct hashes do not interfere); and once the 1-hour TTL from the write
has elapsed, `get_cached_response(url)` returns `None`. -/
theorem c4_amended (md5Hex : String → String) (store : KVStore) (t : ℚ)
    (url body : String) (hu : url ≠ "") (hb : body ≠ "") :
    (getCachedResponse md5Hex (cacheResponse md5Hex store t url body) t url =
      some body) ∧
    (∀ url2, md5Hex url2 ≠ md5Hex url →
      getCachedResponse md5Hex (cacheResponse md5Hex store t url body) t url2 =
        getCachedResponse md5Hex store t url2) ∧
    (∀ now, t + 3600 ≤ now →
      getCachedResponse md5Hex (cacheResponse md5Hex store t url body) now url =
        none) := by
  have hstore : cacheResponse md5Hex store t url body =
      kvSet store t (makeCacheKey md5Hex url) body CACHE_TTL := by
    unfold cacheResponse
    rw [if_neg (by tauto)]
  refine ⟨?_, ?_, ?_⟩
  · unfold getCachedResponse
    rw [if_neg hu, hstore]
    unfold kvGet kvSet
    rw [if_pos rfl]
    have hlt : t < t + CACHE_TTL := by
      have : (0 : ℚ) < CACHE_TTL := by norm_num [CACHE_TTL]
      linarith
    simp [hlt, hb]
  · intro url2 hne
    have hkey : makeCacheKey md5Hex url2 ≠ makeCacheKey md5Hex url := by
      intro h
      apply hne
      have := congrArg String.data h
      simp only [makeCacheKey, String.data_append] at this
      exact String.ext (List.append_cancel_left this)
    unfold getCachedResponse
    by_cases h2 : url2 = ""
    · rw [if_pos h2, if_pos h2]
    · rw [if_neg h2, if_neg h2, hstore]
      unfold kvGet kvSet
      rw [if_neg hkey]
  · intro now hnow
    unfold getCachedResponse
    rw [if_neg hu, hstore]
    unfold kvGet kvSet
    rw [if_pos rfl]
    have hge : ¬ now < t + CACHE_TTL := by
      simp only [CACHE_TTL]
      linarith
    simp [hge]

/-- C4 (witness for the amended theorem): the put/get round trip at a
concrete store, URL and body. -/
theorem c4_amended_witness :
    getCachedResponse (fun s => s)
        (cacheResponse (fun s => s) (fun _ => none) 0 "u" "b") 0 "u" =
      some "b" :=
  (c4_amended (fun s => s) (fun _ => none) 0 "u" "b" (by decide) (by decide)).1

/-- C5: `record_price_history` writes a new row and returns `True` exactly
when the price is present and non-negative and either no prior observation
exists for the item, or it differs from the most recent prior one by more
than $0.01, or it differs by at most $0.01 but the prior observation is more
than 6 hours old; in every other case (including a null or negative price)
it writes nothing and returns `False`. -/
theorem c5_history (hist : List HistRow) (now : ℚ) (itemId : ℕ)
    (price : Option ℚ) (source : String) :
    ((recordPriceHistory hist now itemId price source).1 = true ↔
      ∃ p, price = some p ∧ 0 ≤ p ∧
        (match (hist.filter (fun r => r.itemId == itemId)).head? with
         | none => True
         | some last =>
           |last.price - p| > 1 / 100 ∨
             (|last.price - p| ≤ 1 / 100 ∧
               now - last.recordedAt > 6 * 3600))) ∧
    ((recordPriceHistory hist now itemId price source).1 = false →
      (recordPriceHistory hist now itemId price source).2 = hist) ∧
    (∀ p, price = some p →
      (recordPriceHistory hist now itemId price source).1 = true →
      (recordPriceHistory hist now itemId price source).2 =
        { itemId := itemId, price := p, source := source,
          recordedAt := now } :: hist) := by
  cases price with
  | none =>
    refine ⟨by simp [recordPriceHistory], fun _ => rfl, fun p hp => by cases hp⟩
  | some p =>
    by_cases hp : p < 0
    · have hres : recordPriceHistory hist now itemId (some p) source =
          (false, hist) := by
        simp [recordPriceHistory, hp]
      refine ⟨?_, fun _ => by rw [hres], fun q hq htrue => ?_⟩
      · rw [hres]
        constructor
        · intro h
          exact absurd h (by simp)
        · rintro ⟨q, hq, hq0, _⟩
          obtain rfl : p = q := Option.some.inj hq
          exact absurd hq0 (not_le.mpr hp)
      · rw [hres] at htrue
        exact absurd htrue (by simp)
    · cases hh : (hist.filter (fun r => r.itemId == itemId)).head? with
      | none =>
        have hres : recordPriceHistory hist now itemId (some p) source =
            (true, { itemId := itemId, price := p, source := source,
                     recordedAt := now } :: hist) := by
          simp [recordPriceHistory, hp, hh]
        refine ⟨?_, fun hfalse => ?_, fun q hq _ => ?_⟩
        · rw [hres]
          exact ⟨fun _ => ⟨p, rfl, not_lt.mp hp, trivial⟩, fun _ => rfl⟩
        · rw [hres] at hfalse
          exact absurd hfalse (by simp)
        · obtain rfl : p = q := Option.some.inj hq
          rw [hres]
      | some last =>
        by_cases hrec : |last.price - p| > 1 / 100 ∨
            now - last.recordedAt > 6 * 3600
        · have hres : recordPriceHistory hist now itemId (some p) source =
              (true, { itemId := itemId, price := p, source := source,
                       recordedAt := now } :: hist) := by
            rcases hrec with h1 | h2
            · simp [recordPriceHistory, hp, hh, h1]
              intro hle
              linarith
            · by_cases h1 : |last.price - p| > 1 / 100
              · simp [recordPriceHistory, hp, hh, h1]
                intro hle
                linarith
              · simp [recordPriceHistory, hp, hh, h1, h2]
          refine ⟨?_, fun hfalse => ?_, fun q hq _ => ?_⟩
          · rw [hres]
            refine ⟨fun _ => ⟨p, rfl, not_lt.mp hp, ?_⟩, fun _ => rfl⟩
            show |last.price - p| > 1 / 100 ∨
              (|last.price - p| ≤ 1 / 100 ∧ now - last.recordedAt > 6 * 3600)
            rcases hrec with h1 | h2
            · exact Or.inl h1
            · by_cases h1 : |last.price - p| > 1 / 100
              · exact Or.inl h1
              · exact Or.inr ⟨not_lt.mp h1, h2⟩
          · rw [hres] at hfalse
            exact absurd hfalse (by simp)
          · obtain rfl : p = q := Option.some.inj hq
            rw [hres]
        · push_neg at hrec
          have hres : recordPriceHistory hist now itemId (some p) source =
              (false, hist) := by
            simp [recordPriceHistory, hp, hh, not_lt.mpr hrec.1,
              not_lt.mpr hrec.2]
            linarith [hrec.1]
          refine ⟨?_, fun _ => by rw [hres], fun q hq htrue => ?_⟩
          · rw [hres]
            constructor
            · intro h
              exact absurd h (by simp)
            · rintro ⟨q, hq, hq0, hcond⟩
              obtain rfl : p = q := Option.some.inj hq
              have hcond2 : |last.price - p| > 1 / 100 ∨
                  (|last.price - p| ≤ 1 / 100 ∧
                    now - last.recordedAt > 6 * 3600) := hcond
              rcases hcond2 with h1 | ⟨_, h2⟩
              · exact absurd h1 (not_lt.mpr hrec.1)
              · exact absurd h2 (not_lt.mpr hrec.2)
          · rw [hres] at htrue
            exact absurd htrue (by simp)

/-- C5 (witness): a first observation for an item always records, applied at
a concrete empty history. -/
theorem c5_history_witness :
    (recordPriceHistory [] 0 7 (some 5) "auto").2 =
      [{ itemId := 7, price := 5, source := "auto", recordedAt := 0 }] :=
  (c5_history [] 0 7 (some 5) "auto").2.2 5 rfl (by decide)

theorem candidates_mem {ids : List BrowserIdentity} {st : IdentityState}
    {now : ℚ} {i : BrowserIdentity} (h : i ∈ healthyCandidates ids st now) :
    i ∈ ids ∧ isBurned st now i.id = false := by
  unfold healthyCandidates at h
  cases hX : (ids.filter (fun i => ! isBurned st now i.id)).mergeSort
      (fun i j => st.requests i.id ≤ st.requests j.id) with
  | nil =>
    rw [hX] at h
    cases h
  | cons first rest =>
    rw [hX] at h
    have h2 : i ∈ first :: rest := (List.mem_filter.mp h).1
    rw [← hX] at h2
    have h3 := List.mem_mergeSort.mp h2
    have h4 := List.mem_filter.mp h3
    exact ⟨h4.1, by simpa using h4.2⟩

/-- C6: `get_healthy_identity` never returns a burned identity (every element
of the candidate list of the final `random.choice` is non-burned); it returns
`None` exactly when the candidate list is empty, which happens exactly when
every identity in the pool is burned; and every candidate's usage count is
within +2 of the minimum usage count among non-burned identities. -/
theorem c6_selection (ids : List BrowserIdentity) (st : IdentityState)
    (now : ℚ) :
    (∀ i ∈ healthyCandidates ids st now, isBurned st now i.id = false) ∧
    (healthyCandidates ids st now = [] ↔
      ∀ i ∈ ids, isBurned st now i.id = true) ∧
    (∀ i ∈ healthyCandidates ids st now, ∀ j ∈ ids,
      isBurned st now j.id = false →
      st.requests i.id ≤ st.requests j.id + 2) := by
  refine ⟨fun i h => (candidates_mem h).2, ?_, ?_⟩
  · unfold healthyCandidates
    cases hX : (ids.filter (fun i => ! isBurned st now i.id)).mergeSort
        (fun i j => st.requests i.id ≤ st.requests j.id) with
    | nil =>
      have hperm := List.mergeSort_perm
        (ids.filter (fun i => ! isBurned st now i.id))
        (fun i j => st.requests i.id ≤ st.requests j.id)
      rw [hX] at hperm
      have hnil : ids.filter (fun i => ! isBurned st now i.id) = [] :=
        hperm.symm.eq_nil
      simp only [true_iff]
      intro i hi
      have := List.filter_eq_nil_iff.mp hnil i hi
      simpa using this
    | cons first rest =>
      have hfirst : first ∈ (first :: rest).filter
          (fun i => st.requests i.id ≤ st.requests first.id + 2) := by
        apply List.mem_filter.mpr
        exact ⟨List.mem_cons_self first rest, by simp⟩
      have hmemids : first ∈ ids ∧ isBurned st now first.id = false := by
        have h2 : first ∈ (ids.filter (fun i => ! isBurned st now i.id)).mergeSort
            (fun i j => st.requests i.id ≤ st.requests j.id) := by
          rw [hX]
          exact List.mem_cons_self first rest
        have h3 := List.mem_filter.mp (List.mem_mergeSort.mp h2)
        exact ⟨h3.1, by simpa using h3.2⟩
      constructor
      · intro hempty
        have hempty2 : (first :: rest).filter
            (fun i => st.requests i.id ≤ st.requests first.id + 2) = [] := hempty
        rw [hempty2] at hfirst
        cases hfirst
      · intro hall
        have hfb := hall first hmemids.1
        rw [hmemids.2] at hfb
        simp at hfb
  · intro i hi j hj hjburn
    unfold healthyCandidates at hi
    cases hX : (ids.filter (fun i => ! isBurned st now i.id)).mergeSort
        (fun i j => st.requests i.id ≤ st.requests j.id) with
    | nil =>
      rw [hX] at hi
      cases hi
    | cons first rest =>
      rw [hX] at hi
      have hile : st.requests i.id ≤ st.requests first.id + 2 := by
        have := (List.mem_filter.mp hi).2
        simpa using this
      have hjmem : j ∈ first :: rest := by
        rw [← hX]
        apply List.mem_mergeSort.mpr
        apply List.mem_filter.mpr
        exact ⟨hj, by simpa using hjburn⟩
      have hsorted : (first :: rest).Pairwise
          (fun a b => st.requests a.id ≤ st.requests b.id) := by
        have := @List.sorted_mergeSort BrowserIdentity
          (fun a b => decide (st.requests a.id ≤ st.requests b.id))
          (fun a b c hab hbc => by
            simp only [decide_eq_true_eq] at *
            omega)
          (fun a b => by
            simp only [Bool.or_eq_true, decide_eq_true_eq]
            omega)
          (ids.filter (fun i => ! isBurned st now i.id))
        rw [hX] at this
        exact List.Pairwise.imp (by simp) this
      have hfirstle : st.requests first.id ≤ st.requests j.id := by
        rcases List.mem_cons.mp hjmem with he | hm
        · rw [he]
        · exact (List.pairwise_cons.mp hsorted).1 j hm
      omega

/-- C6 (witness): with an empty pool, the candidate list is empty because
every identity of the (empty) pool is vacuously burned. -/
theorem c6_selection_witness :
    healthyCandidates [] ⟨fun _ => none, fun _ => 0⟩ 0 = [] :=
  (c6_selection [] ⟨fun _ => none, fun _ => 0⟩ 0).2.1.mpr
    (fun i hi => absurd hi (List.not_mem_nil i))

/-- C7: after `mark_burned(identity)` at time `t`, the identity tests as
burned and is excluded from the selection candidates at every instant
strictly before `t + 24` hours — whatever the usage counters hold, since the
burn filter runs before any count comparison — and it tests as available
again once the 24-hour window has elapsed. -/
theorem c7_burn_window (ids : List BrowserIdentity) (st : IdentityState)
    (t : ℚ) (ident : BrowserIdentity) :
    (∀ now, now < t + 24 * 3600 →
      isBurned (markBurned st t ident.id) now ident.id = true ∧
      ∀ i ∈ healthyCandidates ids (markBurned st t ident.id) now,
        i.id ≠ ident.id) ∧
    (∀ now, t + 24 * 3600 ≤ now →
      isBurned (markBurned st t ident.id) now ident.id = false) := by
  have hval : (markBurned st t ident.id).burnedUntil ident.id =
      some (t + (BURN_DURATION_HOURS : ℚ) * 3600) := by
    unfold markBurned
    simp
  have hcast : ((BURN_DURATION_HOURS : ℕ) : ℚ) * 3600 = 24 * 3600 := by
    norm_num [BURN_DURATION_HOURS]
  constructor
  · intro now hnow
    have hburn : isBurned (markBurned st t ident.id) now ident.id = true := by
      unfold isBurned
      rw [hval]
      show decide (now < t + (BURN_DURATION_HOURS : ℚ) * 3600) = true
      exact decide_eq_true (by rw [hcast]; exact hnow)
    refine ⟨hburn, fun i hi he => ?_⟩
    have h2 := (candidates_mem hi).2
    rw [he, hburn] at h2
    simp at h2
  · intro now hnow
    unfold isBurned
    rw [hval]
    show decide (now < t + (BURN_DURATION_HOURS : ℚ) * 3600) = false
    exact decide_eq_false (by rw [hcast]; linarith)

/-- C7 (witness): a concretely burned identity is burned one hour later and
available again exactly at the end of the window. -/
theorem c7_burn_window_witness :
    isBurned (markBurned ⟨fun _ => none, fun _ => 0⟩ 0 "chrome_1") 3600
        "chrome_1" = true ∧
    isBurned (markBurned ⟨fun _ => none, fun _ => 0⟩ 0 "chrome_1") 86400
        "chrome_1" = false :=
  ⟨((c7_burn_window [] ⟨fun _ => none, fun _ => 0⟩ 0 ⟨"chrome_1"⟩).1 3600
      (by norm_num)).1,
    (c7_burn_window [] ⟨fun _ => none, fun _ => 0⟩ 0 ⟨"chrome_1"⟩).2 86400
      (by norm_num)⟩

theorem fetchStdMiss_logs (env : BatchEnv) (u : String) :
    (fetchStdMiss env u).2.length = 1 := by
  unfold fetchStdMiss
  cases env.fetchStd u with
  | exn => rfl
  | http status text =>
    by_cases h : status ≠ 200
    · simp [h]
    · simp [h]

theorem fetchPriceAsyncStandard_logs (env : BatchEnv) (u : String)
    (hu : u ≠ "") :
    (fetchPriceAsyncStandard env u).2.length =
      if (env.cache u).getD "" == "" then 1 else 0 := by
  unfold fetchPriceAsyncStandard
  rw [if_neg hu]
  cases hc : env.cache u with
  | none => simp [fetchStdMiss_logs env u]
  | some t =>
    by_cases ht : t = ""
    · subst ht
      simp [fetchStdMiss_logs env u]
    · simp [ht]

theorem processStandard_logs (env : BatchEnv) (l : List String)
    (h : ∀ u ∈ l, u ≠ "") :
    (processStandard env l).2.length =
      l.countP (fun u => (env.cache u).getD "" == "") := by
  induction l with
  | nil => rfl
  | cons u rest ih =>
    have hu : u ≠ "" := h u (List.mem_cons_self u rest)
    have hrest : ∀ v ∈ rest, v ≠ "" :=
      fun v hv => h v (List.mem_cons_of_mem u hv)
    simp only [processStandard, List.length_append, List.countP_cons,
      ih hrest, fetchPriceAsyncStandard_logs env u hu]
    by_cases hc : (env.cache u).getD "" == ""
    · simp [hc, Nat.add_comm]
    · simp [hc]

theorem processStealth_logs (env : BatchEnv) (l : List String) :
    ∀ k, (processStealth env k l).2.length =
      (List.range l.length).countP (fun n => env.healthy (n + k)) := by
  induction l with
  | nil => intro k; rfl
  | cons u rest ih =>
    intro k
    have hcomp : ((fun n => env.healthy (n + k)) ∘ Nat.succ) =
        (fun n => env.healthy (n + (k + 1))) := by
      funext n
      simp only [Function.comp_apply]
      congr 1
      omega
    simp only [processStealth, List.length_cons, List.range_succ_eq_map,
      List.countP_cons, List.countP_map, hcomp, ih (k + 1), Nat.zero_add]
    by_cases hk : env.healthy k
    · simp only [if_pos hk]
      simp [hk]
      exact ih (k + 1)
    · simp only [if_neg hk]
      simp [hk]
      exact ih (k + 1)

/-- C8: the claim states that exactly one extraction-log row is written per
attempted URL on every path, including cache hits and skips for lack of a
healthy identity. It is false for cache hits: `_fetch_price_async_standard`
returns the parsed cached content at price_async.py lines 230-232, before the
`try/finally` block whose `finally` writes the log row, so a batch over one
cached URL produces its result entry but zero log rows. -/
theorem c8_counterexample :
    (fetchPricesBatch
        { domainOf := fun _ => "example.com", cache := fun _ => some "<html>",
          fetchStd := fun _ => .exn, parseContent := fun _ _ => some 1,
          stealthPrice := fun _ => none, healthy := fun _ => true }
        true true ["http://x"]).2 = [] ∧
    (fetchPricesBatch
        { domainOf := fun _ => "example.com", cache := fun _ => some "<html>",
          fetchStd := fun _ => .exn, parseContent := fun _ _ => some 1,
          stealthPrice := fun _ => none, healthy := fun _ => true }
        true true ["http://x"]).1 = [("http://x", some 1)] := by
  constructor
  · rfl
  · rfl

/-- C8 (amended): after `fetch_prices_batch`, the number of extraction-log
rows equals the number of standard-path URLs whose response was not served
from cache, plus — when the stealth path is enabled and a manager is
available — the number of Amazon URLs for which a healthy identity was found,
and otherwise the number of Amazon URLs not served from cache. Cache hits and
attempts skipped because no healthy identity was available write no log row;
every other attempted URL writes exactly one, success and failure alike. -/
theorem c8_amended (env : BatchEnv) (stealthEnabled managerAvail : Bool)
    (urls : List String) :
    (fetchPricesBatch env stealthEnabled managerAvail urls).2.length =
      (urls.filter (fun u => u ≠ "" && ! isAmazonUrl env u)).countP
        (fun u => (env.cache u).getD "" == "") +
      (if stealthEnabled && managerAvail then
        (List.range
          (urls.filter (fun u => u ≠ "" && isAmazonUrl env u)).length).countP
          env.healthy
      else
        (urls.filter (fun u => u ≠ "" && isAmazonUrl env u)).countP
          (fun u => (env.cache u).getD "" == "")) := by
  have hother : ∀ u ∈ urls.filter (fun u => u ≠ "" && ! isAmazonUrl env u),
      u ≠ "" := by
    intro u hu
    have := (List.mem_filter.mp hu).2
    simp only [Bool.and_eq_true, decide_eq_true_eq] at this
    exact this.1
  have hamz : ∀ u ∈ urls.filter (fun u => u ≠ "" && isAmazonUrl env u),
      u ≠ "" := by
    intro u hu
    have := (List.mem_filter.mp hu).2
    simp only [Bool.and_eq_true, decide_eq_true_eq] at this
    exact this.1
  unfold fetchPricesBatch
  by_cases hse : stealthEnabled && managerAvail
  · simp only [hse, if_true, List.length_append]
    rw [processStandard_logs env _ hother, processStealth_logs env _ 0]
    congr 1
  · simp only [hse, Bool.false_eq_true, if_false, List.length_append]
    rw [processStandard_logs env _ hother, processStandard_logs env _ hamz]

/-- C9: for an item whose price changes from `o` to `p`, notification intents
are emitted exactly when `p < o` and `((o - p) / o) * 100 ≥ 10`; when they
are, the first intent goes to the item's owner, and an additional claimer
intent goes to the last status changer only if that user differs from the
owner; the 15% drop from $299.99 to $254.99 with a distinct claimer of a
Claimed item yields exactly two intents (owner and claimer) with
`price_drops` counted as 1, while the 5% drop to $284.99 yields none. -/
theorem c9_price_drop :
    (∀ (o p : ℚ) (ownerId : ℕ) (lub : Option ℕ) (status : String),
      ((processItemUpdate (some o) p ownerId lub status).2.2 ≠ [] ↔
        p < o ∧ (o - p) / o * 100 ≥ 10) ∧
      ((processItemUpdate (some o) p ownerId lub status).2.2 ≠ [] →
        (processItemUpdate (some o) p ownerId lub status).2.2.head? =
          some ⟨ownerId, .owner⟩) ∧
      (∀ u, (⟨u, .claimer⟩ : NotifIntent) ∈
          (processItemUpdate (some o) p ownerId lub status).2.2 →
        u ≠ ownerId)) ∧
    processItemUpdate (some (mkRat 29999 100)) (mkRat 25499 100) 1 (some 2)
        "Claimed" =
      (1, 1, [⟨1, .owner⟩, ⟨2, .claimer⟩]) ∧
    processItemUpdate (some (mkRat 29999 100)) (mkRat 28499 100) 1 (some 2)
        "Claimed" = (1, 0, []) := by
  refine ⟨?_, by with_unfolding_all decide, by with_unfolding_all decide⟩
  intro o p ownerId lub status
  by_cases hne : o = p
  · subst hne
    have hres : processItemUpdate (some o) o ownerId lub status =
        (0, 0, []) := by
      simp [processItemUpdate]
    rw [hres]
    refine ⟨?_, fun h => absurd rfl h, fun u hu => absurd hu (by simp)⟩
    simp only [ne_eq, not_true_eq_false, false_iff, not_and]
    intro hlt
    exact absurd hlt (lt_irrefl o)
  · have hne2 : (some o ≠ some p) := by simpa using hne
    by_cases hio : o ≠ 0 ∧ p < o
    · by_cases hdp : (o - p) / o * 100 ≥ 10
      · have hres : processItemUpdate (some o) p ownerId lub status =
            (1, 1, createPriceDropNotifications ownerId lub status) := by
          simp [processItemUpdate, hne2, hio, hdp]
        rw [hres]
        refine ⟨?_, fun _ => rfl, fun u hu => ?_⟩
        · simp only [createPriceDropNotifications, ne_eq]
          constructor
          · intro _
            exact ⟨hio.2, hdp⟩
          · intro _
            simp
        · unfold createPriceDropNotifications at hu
          rcases List.mem_cons.mp hu with he | hm
          · simp at he
          · cases lub with
            | none => simp at hm
            | some c =>
              have hm2 : ({ userId := u, role := Role.claimer } : NotifIntent) ∈
                  (if c ≠ 0 ∧ c ≠ ownerId ∧
                      (status = "Claimed" ∨ status = "Purchased") then
                    [({ userId := c, role := Role.claimer } : NotifIntent)]
                  else []) := hm
              by_cases hcond : c ≠ 0 ∧ c ≠ ownerId ∧
                  (status = "Claimed" ∨ status = "Purchased")
              · rw [if_pos hcond] at hm2
                have he2 : u = c :=
                  congrArg NotifIntent.userId (List.mem_singleton.mp hm2)
                rw [he2]
                exact hcond.2.1
              · rw [if_neg hcond] at hm2
                cases hm2
      · have hres : processItemUpdate (some o) p ownerId lub status =
            (1, 0, []) := by
          simp [processItemUpdate, hne2, hio, hdp]
        rw [hres]
        refine ⟨?_, fun h => absurd rfl h, fun u hu => absurd hu (by simp)⟩
        simp only [ne_eq, not_true_eq_false, false_iff, not_and]
        intro _
        exact hdp
    · have hres : processItemUpdate (some o) p ownerId lub status =
          (1, 0, []) := by
        simp only [processItemUpdate, ne_eq, hne2, not_false_eq_true,
          if_true]
        rw [if_neg hio]
      rw [hres]
      refine ⟨?_, fun h => absurd rfl h, fun u hu => absurd hu (by simp)⟩
      simp only [ne_eq, not_true_eq_false, false_iff, not_and]
      intro hlt hdrop
      apply hio
      refine ⟨?_, hlt⟩
      intro ho
      rw [ho] at hdrop
      norm_num at hdrop

/-- C9 (witness): the claimer-differs-from-owner conjunct applied to the
concrete 15% drop scenario. -/
theorem c9_price_drop_witness : (2 : ℕ) ≠ 1 :=
  (c9_price_drop.1 (mkRat 29999 100) (mkRat 25499 100) 1 (some 2)
      "Claimed").2.2 2
    (by
      rw [c9_price_drop.2.1]
      exact List.mem_cons_of_mem _ (List.mem_singleton.mpr rfl))

/-- C10: for an item with a link, when the price fetch yields nothing,
`refresh_item_price` leaves the price unchanged, sets the price-updated-at
timestamp to now, commits exactly once, writes no history row, and returns
`(False, None, "Could not fetch price from URL")`; for an item whose link is
falsy it returns `(False, None, "Item has no link")` and changes nothing. -/
theorem c10_refresh (item : Item) (itemId : ℕ) (now : ℚ)
    (hist : List HistRow) (fmtMoney : ℚ → String) :
    (item.link ≠ "" →
      refreshItemPrice item itemId none now hist fmtMoney =
        { success := false, newPrice := none,
          message := "Could not fetch price from URL",
          item := { item with priceUpdatedAt := some now }, hist := hist,
          commits := 1 }) ∧
    (∀ fetchResult, item.link = "" →
      refreshItemPrice item itemId fetchResult now hist fmtMoney =
        { success := false, newPrice := none, message := "Item has no link",
          item := item, hist := hist, commits := 0 }) := by
  constructor
  · intro h
    unfold refreshItemPrice
    rw [if_neg h]
  · intro f h
    unfold refreshItemPrice
    rw [if_pos h]

/-- C10 (witness): the fetch-failure branch at a concrete linked item. -/
theorem c10_refresh_witness :
    refreshItemPrice ⟨"http://x", some 5, none⟩ 3 none 1000 [] (fun _ => "") =
      { success := false, newPrice := none,
        message := "Could not fetch price from URL",
        item := ⟨"http://x", some 5, some 1000⟩, hist := [], commits := 1 } :=
  (c10_refresh ⟨"http://x", some 5, none⟩ 3 1000 [] (fun _ => "")).1
    (by decide)

end Wishlist
